import Mathlib

/-!
# Verification of the todolist terminal application

A shallow embedding of `src/main.rs` of the `todolist-rust` repository.

Rust strings are modelled as `List Char` (one entry per Unicode scalar
value); byte offsets are recovered through `Char.utf8Size`, which matches
Rust's `char::len_utf8`.  Operations that can panic in Rust (indexing a
`String` at a byte offset that is not a character boundary, inserting into
a `Vec` past its length, indexing a `Vec` out of range) are embedded as
`Option`-valued functions where `none` models the panic.

The `while` loops of the source are embedded as structurally recursive
functions on an explicit iteration bound (`fuel`).  Every loop of the
source advances its index `i` by one per iteration while never increasing
`todos.len()`, so `todos.len() - i` strictly decreases and an initial fuel
of `todos.len()` is always sufficient: the `fuel = 0` base case is reached
only when the loop guard `i < todos.len()` is already false.
-/

namespace Todolist

/-- `enum InputMode` (main.rs lines 19-23). -/
inductive InputMode where
  | Normal
  | Editing
  | Updating
deriving DecidableEq, Repr

/-- `struct Todo { id: usize, text: String, done: bool }` (main.rs lines 25-30).
`text` is the list of the string's characters. -/
structure Todo where
  id : Nat
  text : List Char
  done : Bool
deriving DecidableEq, Repr

/-- `struct Editing { edit: bool }` (main.rs lines 32-34). -/
structure Editing where
  edit : Bool
deriving DecidableEq, Repr

/-- `struct App` (main.rs lines 36-43). -/
structure App where
  input : List Char
  cursor_position : Nat
  input_mode : InputMode
  count : Nat
  todos : List Todo
  editing : List Editing
deriving DecidableEq, Repr

/-- `impl Default for App` (main.rs lines 45-56). -/
def App.default : App :=
  { input := [], input_mode := InputMode.Normal, cursor_position := 0,
    count := 0, todos := [], editing := [] }

/-- UTF-8 length in bytes of a string modelled as a character list
(Rust `String::len`). -/
def byteLen (s : List Char) : Nat := (s.map Char.utf8Size).sum

/-- Rust `String::insert(idx, ch)`: `idx` is a byte offset; the call
panics (`none`) when `idx` exceeds the byte length or falls strictly
inside the UTF-8 encoding of a character. -/
def insertAtByte : List Char → Nat → Char → Option (List Char)
  | s, 0, c => some (c :: s)
  | [], _ + 1, _ => none
  | a :: s, i + 1, c =>
      if a.utf8Size ≤ i + 1 then
        (insertAtByte s (i + 1 - a.utf8Size) c).map (fun t => a :: t)
      else
        none

/-- `usize::saturating_add` on the 64-bit target. -/
def saturatingAdd (a b : Nat) : Nat := min (a + b) (2 ^ 64 - 1)

/-- `App::clamp_cursor` (main.rs lines 87-89): clamps to the byte length
of the input buffer (`self.input.len()` is a byte count in Rust). -/
def App.clamp_cursor (a : App) (new_cursor_pos : Nat) : Nat :=
  min new_cursor_pos (byteLen a.input)

/-- `App::move_cursor_left` (main.rs lines 59-62); `usize::saturating_sub`
is truncated subtraction on `Nat`. -/
def App.move_cursor_left (a : App) : App :=
  { a with cursor_position := a.clamp_cursor (a.cursor_position - 1) }

/-- `App::move_cursor_right` (main.rs lines 64-67). -/
def App.move_cursor_right (a : App) : App :=
  { a with cursor_position := a.clamp_cursor (saturatingAdd a.cursor_position 1) }

/-- `App::enter_char` (main.rs lines 69-73): inserts at the byte offset
`cursor_position` (may panic, modelled by `none`), then moves right. -/
def App.enter_char (a : App) (new_char : Char) : Option App :=
  (insertAtByte a.input a.cursor_position new_char).map
    (fun s => App.move_cursor_right { a with input := s })

/-- `App::delete_char` (main.rs lines 75-85): character-based take/skip
around the cursor, then move left. -/
def App.delete_char (a : App) : App :=
  if a.cursor_position ≠ 0 then
    App.move_cursor_left
      { a with input :=
          a.input.take (a.cursor_position - 1) ++ a.input.drop a.cursor_position }
  else
    a

/-- `App::reset_cursor` (main.rs lines 91-93). -/
def App.reset_cursor (a : App) : App := { a with cursor_position := 0 }

/-- `App::submit_message` (main.rs lines 95-107).  `Vec::insert(count, _)`
panics when `count > todos.len()`, modelled by the guard. -/
def App.submit_message (a : App) : Option App :=
  if a.count ≤ a.todos.length then
    some { a with
      editing := a.editing ++ [⟨false⟩],
      todos := a.todos.insertIdx a.count ⟨a.count, a.input, false⟩,
      input := [],
      cursor_position := 0,
      count := a.count + 1 }
  else
    none

/-- The key-event kinds relevant to the program (crossterm `KeyEventKind`). -/
inductive KeyEventKind where
  | press
  | release
deriving DecidableEq, Repr

/-- The key codes the program distinguishes (crossterm `KeyCode`); every
other code falls into `other`. -/
inductive KeyCode where
  | enter
  | char (c : Char)
  | backspace
  | left
  | right
  | esc
  | other
deriving DecidableEq, Repr

/-- A keyboard event: crossterm `KeyEvent`, restricted to the fields the
program reads. -/
structure KeyEvent where
  kind : KeyEventKind
  code : KeyCode
deriving DecidableEq, Repr

/-- The mouse-event kinds the program distinguishes: `Up(Left)`,
`Down(Left)`, anything else. -/
inductive MouseEventKind where
  | upLeft
  | downLeft
  | other
deriving DecidableEq, Repr

/-- A mouse event (crossterm `MouseEvent`): kind plus `u16` column and
row, hence values below `2 ^ 16`. -/
structure MouseEvent where
  kind : MouseEventKind
  column : Nat
  row : Nat
deriving DecidableEq, Repr

/-- An input event as returned by `event::read()`. -/
inductive Event where
  | key (k : KeyEvent)
  | mouse (m : MouseEvent)
deriving DecidableEq, Repr

/-- Outcome of handling one keyboard event: continue the loop, return
`Ok(())` (exit), or panic. -/
inductive Outcome where
  | next (a : App)
  | halt (a : App)
  | panic
deriving DecidableEq, Repr

/-- The `while` loop of the `Updating`/`Enter` branch (main.rs lines
196-202): clears the `edit` flag of every index `i < todos.len()`.
Reading `app.editing[i]` panics (`none`) when `i` is out of range of
`editing`.  `fuel` bounds the iterations; see the file header. -/
def endEditLoopAux : Nat → Nat → App → Option App
  | 0, _, a => some a
  | fuel + 1, i, a =>
      if i < a.todos.length then
        if hei : i < a.editing.length then
          endEditLoopAux fuel (i + 1)
            { a with editing :=
                if (a.editing.get ⟨i, hei⟩).edit then a.editing.set i ⟨false⟩
                else a.editing }
        else
          none
      else
        some a

/-- The `while` loop of the `Updating`/`Char(to_insert)` branch (main.rs
lines 205-212): for every flagged task, inserts `to_insert` at byte
offset `text.len()` (the byte length, a valid boundary: the insert
appends the character). -/
def updCharLoopAux (c : Char) : Nat → Nat → App → Option App
  | 0, _, a => some a
  | fuel + 1, i, a =>
      if h : i < a.todos.length then
        if hei : i < a.editing.length then
          if (a.editing.get ⟨i, hei⟩).edit then
            (insertAtByte (a.todos.get ⟨i, h⟩).text
                (byteLen (a.todos.get ⟨i, h⟩).text) c).bind
              (fun s =>
                updCharLoopAux c fuel (i + 1)
                  { a with todos :=
                      a.todos.set i { a.todos.get ⟨i, h⟩ with text := s } })
          else
            updCharLoopAux c fuel (i + 1) a
        else
          none
      else
        some a

/-- The `while` loop of the `Updating`/`Backspace` branch (main.rs lines
215-221): `String::pop` removes the last character of every flagged
task's text (no-op on an empty string). -/
def updBackspaceLoopAux : Nat → Nat → App → Option App
  | 0, _, a => some a
  | fuel + 1, i, a =>
      if h : i < a.todos.length then
        if hei : i < a.editing.length then
          if (a.editing.get ⟨i, hei⟩).edit then
            updBackspaceLoopAux fuel (i + 1)
              { a with todos :=
                  a.todos.set i { a.todos.get ⟨i, h⟩ with
                    text := (a.todos.get ⟨i, h⟩).text.dropLast } }
          else
            updBackspaceLoopAux fuel (i + 1) a
        else
          none
      else
        some a

/-- Keyboard handling of one `Event::Key` (main.rs lines 170-226). -/
def handleKey (a : App) (k : KeyEvent) : Outcome :=
  match a.input_mode with
  | InputMode.Normal =>
      match k.code with
      | KeyCode.esc => Outcome.halt a
      | _ => Outcome.next a
  | InputMode.Editing =>
      if k.kind = KeyEventKind.press then
        match k.code with
        | KeyCode.enter =>
            match a.submit_message with
            | some a' => Outcome.next a'
            | none => Outcome.panic
        | KeyCode.char c =>
            match a.enter_char c with
            | some a' => Outcome.next a'
            | none => Outcome.panic
        | KeyCode.backspace => Outcome.next a.delete_char
        | KeyCode.left => Outcome.next a.move_cursor_left
        | KeyCode.right => Outcome.next a.move_cursor_right
        | _ => Outcome.next a
      else
        Outcome.next a
  | InputMode.Updating =>
      if k.kind = KeyEventKind.press then
        match k.code with
        | KeyCode.enter =>
            match endEditLoopAux a.todos.length 0 { a with input_mode := InputMode.Normal } with
            | some a' => Outcome.next a'
            | none => Outcome.panic
        | KeyCode.char c =>
            match updCharLoopAux c a.todos.length 0 a with
            | some a' => Outcome.next a'
            | none => Outcome.panic
        | KeyCode.backspace =>
            match updBackspaceLoopAux a.todos.length 0 a with
            | some a' => Outcome.next a'
            | none => Outcome.panic
        | _ => Outcome.next a
      else
        Outcome.next a

/-- The inner `while j` loop of the delete branches (main.rs lines
252-256 and 269-273): `todos[j].id = j` for every `j`, embedded by its
index-based iteration. -/
def renumberLoopAux : Nat → Nat → List Todo → List Todo
  | 0, _, l => l
  | fuel + 1, j, l =>
      if h : j < l.length then
        renumberLoopAux fuel (j + 1) (l.set j { l.get ⟨j, h⟩ with id := j })
      else
        l

/-- The renumbering pass starting at `j = 0` over the whole list. -/
def renumberLoop (l : List Todo) : List Todo := renumberLoopAux l.length 0 l

/-- The `while i` loop of the mouse-click handler (main.rs lines
243-283).  `row == i as u16 + 5` and `row == 5 + rw` are `u16`
comparisons, so both sides wrap modulo `2 ^ 16`; `rw` is a `u16`
accumulator stepped by 3.  Writing `app.editing[i]` panics (`none`)
when `i` is out of range of `editing`. -/
def mouseLoopAux (column row : Nat) : Nat → Nat → Nat → App → Option App
  | 0, _, _, a => some a
  | fuel + 1, i, rw, a =>
      if h : i < a.todos.length then
        if i = 0 then
          if (column = 3 ∨ column = 4) ∧ row = (i % 2 ^ 16 + 5) % 2 ^ 16 then
            let t := a.todos.get ⟨i, h⟩
            mouseLoopAux column row fuel (i + 1) ((rw + 3) % 2 ^ 16)
              { a with todos := a.todos.set i { t with done := !t.done } }
          else if column = 56 ∧ row = (i % 2 ^ 16 + 5) % 2 ^ 16 then
            mouseLoopAux column row fuel (i + 1) ((rw + 3) % 2 ^ 16)
              { a with todos := renumberLoop (a.todos.eraseIdx i), count := a.count - 1 }
          else if 5 < column ∧ column < 56 ∧ row = (i % 2 ^ 16 + 5) % 2 ^ 16 then
            if i < a.editing.length then
              mouseLoopAux column row fuel (i + 1) ((rw + 3) % 2 ^ 16)
                { a with editing := a.editing.set i ⟨true⟩, input_mode := InputMode.Updating }
            else
              none
          else
            if i < a.editing.length then
              mouseLoopAux column row fuel (i + 1) ((rw + 3) % 2 ^ 16)
                { a with editing := a.editing.set i ⟨false⟩ }
            else
              none
        else
          if (column = 3 ∨ column = 4) ∧ row = (5 + rw) % 2 ^ 16 then
            let t := a.todos.get ⟨i, h⟩
            mouseLoopAux column row fuel (i + 1) ((rw + 3) % 2 ^ 16)
              { a with todos := a.todos.set i { t with done := !t.done } }
          else if column = 56 ∧ row = (5 + rw) % 2 ^ 16 then
            mouseLoopAux column row fuel (i + 1) ((rw + 3) % 2 ^ 16)
              { a with todos := renumberLoop (a.todos.eraseIdx i), count := a.count - 1 }
          else if 5 < column ∧ column < 56 ∧ row = (5 + rw) % 2 ^ 16 then
            if i < a.editing.length then
              mouseLoopAux column row fuel (i + 1) ((rw + 3) % 2 ^ 16)
                { a with editing := a.editing.set i ⟨true⟩, input_mode := InputMode.Updating }
            else
              none
          else
            if i < a.editing.length then
              mouseLoopAux column row fuel (i + 1) ((rw + 3) % 2 ^ 16)
                { a with editing := a.editing.set i ⟨false⟩ }
            else
              none
      else
        some a

/-- Mouse handling of one `Event::Mouse` (main.rs lines 228-288): only
left-button up/down clicks act; the mode is set from the row first
(`column >= 1 && row == 3 || row == 2 || row == 1` parses as
`(column >= 1 && row == 3) || row == 2 || row == 1`), then the task
loop runs. -/
def handleMouse (a : App) (m : MouseEvent) : Option App :=
  if m.kind = MouseEventKind.upLeft ∨ m.kind = MouseEventKind.downLeft then
    let a1 := { a with input_mode :=
      if (1 ≤ m.column ∧ m.row = 3) ∨ m.row = 2 ∨ m.row = 1 then
        InputMode.Editing
      else
        InputMode.Normal }
    mouseLoopAux m.column m.row a1.todos.length 0 0 a1
  else
    some a

/-- The toggle mutation of the mouse handler (main.rs lines 247-248 and
264-265), abstracted over the clicked task's index: flips `done` when
the index is in range (a click only ever matches an existing row). -/
def toggleDone (i : Nat) (a : App) : App :=
  if h : i < a.todos.length then
    let t := a.todos.get ⟨i, h⟩
    { a with todos := a.todos.set i { t with done := !t.done } }
  else
    a

/-- The delete mutation of the mouse handler (main.rs lines 249-256 and
266-273), abstracted over the clicked task's index: removes the task,
decrements `count`, and renumbers every remaining task's `id` to its
position. -/
def deleteTask (i : Nat) (a : App) : App :=
  if i < a.todos.length then
    { a with todos := renumberLoop (a.todos.eraseIdx i), count := a.count - 1 }
  else
    a

/-- A Task List Model operation: add a task whose text is `t` (compose
`t` in the input buffer, then `submit_message`), toggle the task at `i`,
or delete the task at `i`. -/
inductive ModelOp where
  | add (t : List Char)
  | toggle (i : Nat)
  | delete (i : Nat)

/-- One model operation; `add` can panic (`none`) exactly when
`Vec::insert(count, _)` would. -/
def stepOp (op : ModelOp) (a : App) : Option App :=
  match op with
  | ModelOp.add t => App.submit_message { a with input := t }
  | ModelOp.toggle i => some (toggleDone i a)
  | ModelOp.delete i => some (deleteTask i a)

/-- Run a sequence of model operations, propagating a panic. -/
def runOps : List ModelOp → App → Option App
  | [], a => some a
  | op :: ops, a =>
      match stepOp op a with
      | some a' => runOps ops a'
      | none => none

/-- The startup load of `run_app` (main.rs lines 147-156), over the
store's current value (`none` when the registry value is absent) and the
JSON decoder (`serde_json::from_str`, an external collaborator, passed
as a parameter).  Absent value: write `"[]"`, read it back, decode.
Present value: read it, decode.  A decode failure propagates through `?`
as an error, terminating `run_app`.  Returns the decoded tasks together
with the value now held by the store. -/
def loadTodos (decode : String → Option (List Todo)) :
    Option String → Except Unit (List Todo × String)
  | some s =>
      match decode s with
      | some ts => Except.ok (ts, s)
      | none => Except.error ()
  | none =>
      match decode "[]" with
      | some ts => Except.ok (ts, "[]")
      | none => Except.error ()

/-- Result of running the event loop on a finite event list: the loop
ran out of events (`ok`), returned `Ok(())` on `Esc` in `Normal` mode
(`exited`), or panicked. -/
inductive RunResult where
  | ok (a : App)
  | exited (a : App)
  | panic
deriving DecidableEq, Repr

/-- The event loop of `run_app` (main.rs lines 164-290) on a finite list
of events.  Each iteration calls `event::read()` once; if the event is
not a key event, the `else if` calls `event::read()` a second time and
handles that second event only if it is a mouse event (discarding it
otherwise). -/
def run (a : App) : List Event → RunResult
  | [] => RunResult.ok a
  | Event.key k :: rest =>
      match handleKey a k with
      | Outcome.next a' => run a' rest
      | Outcome.halt a' => RunResult.exited a'
      | Outcome.panic => RunResult.panic
  | Event.mouse _ :: rest =>
      match rest with
      | [] => RunResult.ok a
      | Event.mouse m :: rest' =>
          match handleMouse a m with
          | some a' => run a' rest'
          | none => RunResult.panic
      | Event.key _ :: rest' => run a rest'

/-- A cursor-movement operation of the input buffer:
`App::move_cursor_left` or `App::move_cursor_right`. -/
inductive CursorMove where
  | left
  | right

/-- Apply one cursor-movement operation. -/
def applyMove (m : CursorMove) (a : App) : App :=
  match m with
  | CursorMove.left => a.move_cursor_left
  | CursorMove.right => a.move_cursor_right

/-- Apply a sequence of cursor-movement operations, left to right. -/
def applyMoves : List CursorMove → App → App
  | [], a => a
  | m :: ms, a => applyMoves ms (applyMove m a)

/-- Default `Todo` used as the fallback of `List.getD`. -/
def defaultTodo : Todo := ⟨0, [], false⟩

/-! ## Theorems -/

/-- Cursor moves do not change the input buffer. -/
theorem input_applyMove (m : CursorMove) (a : App) :
    (applyMove m a).input = a.input := by
  cases m <;> rfl

/-- After one cursor move the cursor is at most the byte length of the
buffer, whatever it was before. -/
theorem cursor_applyMove_le (m : CursorMove) (a : App) :
    (applyMove m a).cursor_position ≤ byteLen (applyMove m a).input := by
  cases m <;>
    simp [applyMove, App.move_cursor_left, App.move_cursor_right, App.clamp_cursor]

/-- A sequence of cursor moves preserves the bound
`cursor_position ≤ byteLen input`. -/
theorem applyMoves_cursor_le (ms : List CursorMove) (a : App)
    (h : a.cursor_position ≤ byteLen a.input) :
    (applyMoves ms a).cursor_position ≤ byteLen (applyMoves ms a).input := by
  induction ms generalizing a with
  | nil => exact h
  | cons m ms ih => exact ih (applyMove m a) (cursor_applyMove_le m a)

/-- C1: the claim says every model operation is total and never unwinds,
including on multi-byte characters in the input buffer.  The code
violates this: from startup, clicking the input box (entering `Editing`
mode) and typing `'é'` and then `'x'` reaches `App::enter_char` with
`cursor_position = 1`, a byte offset strictly inside the two-byte UTF-8
encoding of `'é'`, so `String::insert` panics.  This theorem evaluates
the embedded program on that event sequence and shows it panics. -/
theorem c1_enter_char_panics_on_multibyte_input :
    run App.default
      [Event.mouse ⟨MouseEventKind.downLeft, 1, 1⟩,
       Event.mouse ⟨MouseEventKind.downLeft, 1, 1⟩,
       Event.key ⟨KeyEventKind.press, KeyCode.char 'é'⟩,
       Event.key ⟨KeyEventKind.press, KeyCode.char 'x'⟩]
      = RunResult.panic := by
  decide

/-- C2: the claim says deleting the task at index `i` also removes the
edit flag at index `i`, keeping the two vectors the same length.  The
code never shrinks `editing`: from startup, clicking the input box,
adding one task with `Enter`, and clicking the task's delete column
(column 56, row 5) leaves `todos` empty but `editing` of length 1. -/
theorem c2_delete_leaves_edit_flag_behind :
    run App.default
      [Event.mouse ⟨MouseEventKind.downLeft, 1, 1⟩,
       Event.mouse ⟨MouseEventKind.downLeft, 1, 1⟩,
       Event.key ⟨KeyEventKind.press, KeyCode.enter⟩,
       Event.mouse ⟨MouseEventKind.downLeft, 56, 5⟩,
       Event.mouse ⟨MouseEventKind.downLeft, 56, 5⟩]
      = RunResult.ok ⟨[], 0, InputMode.Normal, 0, [], [⟨false⟩]⟩ ∧
    (⟨[], 0, InputMode.Normal, 0, [], [⟨false⟩]⟩ : App).editing.length ≠
      (⟨[], 0, InputMode.Normal, 0, [], [⟨false⟩]⟩ : App).todos.length := by
  decide

/-- C3: the claim says no reachable state has two tasks flagged
`editing = true`.  Because deletes do not remove edit flags (see C2),
stale `true` flags survive beyond `todos.len()` and re-enter range when
tasks are added again.  The event sequence below — add three tasks,
begin editing task 2, delete task 0, begin editing task 1, delete task 0
again, click the input box, add two tasks — reaches a state with three
tasks where the flags at indices 1 and 2 are both `true`. -/
theorem c3_two_tasks_flagged_editing :
    run App.default
      [Event.mouse ⟨MouseEventKind.downLeft, 1, 1⟩,
       Event.mouse ⟨MouseEventKind.downLeft, 1, 1⟩,
       Event.key ⟨KeyEventKind.press, KeyCode.enter⟩,
       Event.key ⟨KeyEventKind.press, KeyCode.enter⟩,
       Event.key ⟨KeyEventKind.press, KeyCode.enter⟩,
       Event.mouse ⟨MouseEventKind.downLeft, 10, 11⟩,
       Event.mouse ⟨MouseEventKind.downLeft, 10, 11⟩,
       Event.mouse ⟨MouseEventKind.downLeft, 56, 5⟩,
       Event.mouse ⟨MouseEventKind.downLeft, 56, 5⟩,
       Event.mouse ⟨MouseEventKind.downLeft, 10, 8⟩,
       Event.mouse ⟨MouseEventKind.downLeft, 10, 8⟩,
       Event.mouse ⟨MouseEventKind.downLeft, 56, 5⟩,
       Event.mouse ⟨MouseEventKind.downLeft, 56, 5⟩,
       Event.mouse ⟨MouseEventKind.downLeft, 1, 1⟩,
       Event.mouse ⟨MouseEventKind.downLeft, 1, 1⟩,
       Event.key ⟨KeyEventKind.press, KeyCode.enter⟩,
       Event.key ⟨KeyEventKind.press, KeyCode.enter⟩]
      = RunResult.ok
          ⟨[], 0, InputMode.Editing, 3,
           [⟨0, [], false⟩, ⟨1, [], false⟩, ⟨2, [], false⟩],
           [⟨false⟩, ⟨true⟩, ⟨true⟩, ⟨false⟩, ⟨false⟩]⟩ ∧
    (([⟨false⟩, ⟨true⟩, ⟨true⟩, ⟨false⟩, ⟨false⟩] : List Editing).getD 1 ⟨false⟩).edit
        = true ∧
    (([⟨false⟩, ⟨true⟩, ⟨true⟩, ⟨false⟩, ⟨false⟩] : List Editing).getD 2 ⟨false⟩).edit
        = true ∧
    1 < ([⟨0, [], false⟩, ⟨1, [], false⟩, ⟨2, [], false⟩] : List Todo).length ∧
    2 < ([⟨0, [], false⟩, ⟨1, [], false⟩, ⟨2, [], false⟩] : List Todo).length := by
  decide

/-- C4 counterexample: the claim says an escape key press in `Editing`
mode switches the mode back to `Normal`.  On a concrete state in
`Editing` mode the key is ignored: the state (its mode included) is
unchanged, and that mode is `Editing`, not `Normal`. -/
theorem c4_esc_does_not_return_to_normal :
    handleKey ⟨[], 0, InputMode.Editing, 0, [], []⟩
        ⟨KeyEventKind.press, KeyCode.esc⟩
      = Outcome.next ⟨[], 0, InputMode.Editing, 0, [], []⟩ ∧
    (⟨[], 0, InputMode.Editing, 0, [], []⟩ : App).input_mode ≠ InputMode.Normal := by
  decide

/-- C4 amended: in `Editing` mode an escape key press is ignored — the
state, its mode included, is entirely unchanged, so nothing is submitted
and no task is added. -/
theorem c4_esc_ignored_in_editing_mode (a : App)
    (h : a.input_mode = InputMode.Editing) :
    handleKey a ⟨KeyEventKind.press, KeyCode.esc⟩ = Outcome.next a := by
  simp [handleKey, h]

/-- C4 witness: the amended theorem applied at a concrete state. -/
theorem c4_esc_ignored_in_editing_mode_witness :
    (⟨[], 0, InputMode.Editing, 1, [⟨0, [], false⟩], [⟨false⟩]⟩ : App).input_mode
        = InputMode.Editing ∧
    handleKey ⟨[], 0, InputMode.Editing, 1, [⟨0, [], false⟩], [⟨false⟩]⟩
        ⟨KeyEventKind.press, KeyCode.esc⟩
      = Outcome.next ⟨[], 0, InputMode.Editing, 1, [⟨0, [], false⟩], [⟨false⟩]⟩ :=
  ⟨rfl, c4_esc_ignored_in_editing_mode _ rfl⟩

/-- C7 counterexample: the claim says the cursor always stays within
`[0, L]` where `L` is the character count of the buffer.  The code
clamps to the byte length: with the one-character buffer `"é"` (two
bytes) and cursor 1, `move_cursor_right` yields cursor 2, exceeding the
character count 1. -/
theorem c7_cursor_exceeds_char_count :
    (App.move_cursor_right ⟨['é'], 1, InputMode.Editing, 0, [], []⟩).cursor_position
        = 2 ∧
    (⟨['é'], 1, InputMode.Editing, 0, [], []⟩ : App).input.length = 1 ∧
    ¬ (App.move_cursor_right ⟨['é'], 1, InputMode.Editing, 0, [], []⟩).cursor_position
        ≤ (⟨['é'], 1, InputMode.Editing, 0, [], []⟩ : App).input.length := by
  decide

/-- The renumbering loop preserves the list length. -/
theorem renumberLoopAux_length (fuel : Nat) :
    ∀ (j : Nat) (l : List Todo), (renumberLoopAux fuel j l).length = l.length := by
  induction fuel with
  | zero => intro j l; rfl
  | succ fuel ih =>
      intro j l
      unfold renumberLoopAux
      by_cases h : j < l.length
      · rw [dif_pos h, ih, List.length_set]
      · rw [dif_neg h]

/-- Element-wise description of the renumbering loop: provided the fuel
covers the remaining indices, every element at index `k ≥ j` gets its
`id` overwritten with `k` and every element below `j` is untouched. -/
theorem renumberLoopAux_getD (fuel : Nat) :
    ∀ (j : Nat) (l : List Todo), l.length ≤ j + fuel →
      ∀ k, k < l.length →
        (renumberLoopAux fuel j l).getD k defaultTodo =
          if j ≤ k then { l.getD k defaultTodo with id := k }
          else l.getD k defaultTodo := by
  induction fuel with
  | zero =>
      intro j l hfuel k hk
      rw [if_neg (by omega)]
      rfl
  | succ fuel ih =>
      intro j l hfuel k hk
      unfold renumberLoopAux
      by_cases h : j < l.length
      · rw [dif_pos h]
        have hlen : (l.set j { l.get ⟨j, h⟩ with id := j }).length = l.length :=
          List.length_set l j _
        rw [ih (j + 1) _ (by omega) k (by omega)]
        have hset : ∀ m, m < l.length →
            (l.set j { l.get ⟨j, h⟩ with id := j }).getD m defaultTodo =
              if j = m then { l.getD j defaultTodo with id := j }
              else l.getD m defaultTodo := by
          intro m hm
          rw [List.getD_eq_getElem _ _ (by omega), List.getD_eq_getElem _ _ hm,
            List.getElem_set]
          by_cases hjm : j = m
          · rw [if_pos hjm, if_pos hjm, List.getD_eq_getElem _ _ h]
            rfl
          · rw [if_neg hjm, if_neg hjm]
        by_cases hjk : j + 1 ≤ k
        · rw [if_pos hjk, if_pos (by omega), hset k hk, if_neg (by omega)]
        · rw [if_neg hjk]
          by_cases hjk2 : j ≤ k
          · have : j = k := by omega
            subst this
            rw [if_pos (le_refl j), hset j h, if_pos rfl]
          · rw [if_neg hjk2, hset k hk, if_neg (by omega)]
      · rw [dif_neg h, if_neg (by omega)]

/-- The renumbering pass gives the list dense positional ids. -/
theorem renumberLoop_map_id (l : List Todo) :
    (renumberLoop l).map Todo.id = List.range l.length := by
  apply List.ext_getElem
  · rw [List.length_map, renumberLoop, renumberLoopAux_length, List.length_range]
  · intro n h1 h2
    have hn : n < l.length := by
      simpa [renumberLoop, renumberLoopAux_length] using h1
    have hn' : n < (renumberLoop l).length := by
      simpa [renumberLoop, renumberLoopAux_length] using hn
    rw [List.getElem_map, List.getElem_range]
    have := renumberLoopAux_getD l.length 0 l (by omega) n hn
    rw [if_pos (Nat.zero_le n)] at this
    rw [← List.getD_eq_getElem _ defaultTodo hn', renumberLoop, this]

/-- The renumbering pass only rewrites ids: text and completion flag at
every position are preserved. -/
theorem renumberLoop_getD (l : List Todo) (k : Nat) (hk : k < l.length) :
    (renumberLoop l).getD k defaultTodo =
      { l.getD k defaultTodo with id := k } := by
  rw [renumberLoop, renumberLoopAux_getD l.length 0 l (by omega) k hk,
    if_pos (Nat.zero_le k)]

/-- Overwriting the `id` field with its current value is the identity. -/
theorem todo_with_id_self (t : Todo) (n : Nat) (h : t.id = n) :
    { t with id := n } = t := by
  cases t
  cases h
  rfl

/-- A dense positional id list read element-wise. -/
theorem map_id_range_getD (l : List Todo)
    (hinv : l.map Todo.id = List.range l.length) :
    ∀ k, k < l.length → (l.getD k defaultTodo).id = k := by
  intro k hk
  have hk1 : k < (l.map Todo.id).length := by simpa using hk
  have e1 : (l.map Todo.id).getD k 0 = (l.getD k defaultTodo).id := by
    rw [List.getD_eq_getElem _ _ hk1, List.getElem_map, List.getD_eq_getElem _ _ hk]
  have e2 : (List.range l.length).getD k 0 = k := by
    rw [List.getD_eq_getElem _ _ (by simpa using hk), List.getElem_range]
  rw [hinv, e2] at e1
  exact e1.symm

/-- C6: on a task list with dense positional ids, deleting the task at a
valid index `i` leaves every task before `i` entirely unchanged and
turns the rest into the same tasks (same text and completion flag) with
`id` decreased by exactly 1: the result is
`take i ++ (drop (i+1)).map (id decremented)`. -/
theorem c6_delete_shifts_ids_and_preserves_rest (a : App) (i : Nat)
    (hinv : a.todos.map Todo.id = List.range a.todos.length)
    (hi : i < a.todos.length) :
    (deleteTask i a).todos =
      a.todos.take i ++
        (a.todos.drop (i + 1)).map (fun t => { t with id := t.id - 1 }) := by
  have hid := map_id_range_getD a.todos hinv
  simp only [deleteTask]
  rw [if_pos hi]
  have hE : (a.todos.eraseIdx i).length = a.todos.length - 1 := by
    rw [List.length_eraseIdx, if_pos hi]
  have htake : (a.todos.take i).length = i := by
    rw [List.length_take]
    omega
  apply List.ext_getElem
  · rw [renumberLoop, renumberLoopAux_length, hE, List.length_append, htake,
      List.length_map, List.length_drop]
    omega
  · intro n h1 h2
    have hn : n < a.todos.length - 1 := by
      rw [renumberLoop, renumberLoopAux_length, hE] at h1
      exact h1
    have hnE : n < (a.todos.eraseIdx i).length := by omega
    have hL : (renumberLoop (a.todos.eraseIdx i))[n] =
        { (a.todos.eraseIdx i).getD n defaultTodo with id := n } := by
      rw [← List.getD_eq_getElem _ defaultTodo h1, renumberLoop_getD _ n hnE]
    have hEn : (a.todos.eraseIdx i).getD n defaultTodo =
        if n < i then a.todos.getD n defaultTodo
        else a.todos.getD (n + 1) defaultTodo := by
      rw [List.getD_eq_getElem _ _ hnE, List.getElem_eraseIdx]
      by_cases hni : n < i
      · rw [dif_pos hni, if_pos hni, List.getD_eq_getElem _ _ (by omega)]
      · rw [dif_neg hni, if_neg hni, List.getD_eq_getElem _ _ (by omega)]
    rw [hL, hEn]
    by_cases hni : n < i
    · rw [if_pos hni,
        List.getElem_append_left (by rw [htake]; exact hni),
        List.getElem_take, ← List.getD_eq_getElem _ defaultTodo (by omega)]
      exact todo_with_id_self _ n (hid n (by omega))
    · rw [if_neg hni,
        List.getElem_append_right (by rw [htake]; omega)]
      simp only [htake]
      rw [List.getElem_map, List.getElem_drop]
      have hix : i + 1 + (n - i) = n + 1 := by omega
      simp only [hix]
      rw [← List.getD_eq_getElem _ defaultTodo (by omega : n + 1 < a.todos.length),
        hid (n + 1) (by omega), Nat.add_sub_cancel]

/-- C6 witness: the theorem applied at a concrete three-task list with
dense positional ids and the valid index 1. -/
theorem c6_delete_witness :
    ((⟨[], 0, InputMode.Normal, 3,
        [⟨0, ['a'], false⟩, ⟨1, ['b'], true⟩, ⟨2, ['c'], false⟩], []⟩ : App).todos.map
          Todo.id
        = List.range (⟨[], 0, InputMode.Normal, 3,
            [⟨0, ['a'], false⟩, ⟨1, ['b'], true⟩, ⟨2, ['c'], false⟩], []⟩ : App).todos.length ∧
      1 < (⟨[], 0, InputMode.Normal, 3,
            [⟨0, ['a'], false⟩, ⟨1, ['b'], true⟩, ⟨2, ['c'], false⟩], []⟩ : App).todos.length) ∧
    (deleteTask 1 (⟨[], 0, InputMode.Normal, 3,
        [⟨0, ['a'], false⟩, ⟨1, ['b'], true⟩, ⟨2, ['c'], false⟩], []⟩ : App)).todos =
      (⟨[], 0, InputMode.Normal, 3,
        [⟨0, ['a'], false⟩, ⟨1, ['b'], true⟩, ⟨2, ['c'], false⟩], []⟩ : App).todos.take 1 ++
        ((⟨[], 0, InputMode.Normal, 3,
            [⟨0, ['a'], false⟩, ⟨1, ['b'], true⟩, ⟨2, ['c'], false⟩], []⟩ : App).todos.drop
              (1 + 1)).map (fun t => { t with id := t.id - 1 }) :=
  ⟨⟨by decide, by decide⟩,
   c6_delete_shifts_ids_and_preserves_rest _ 1 (by decide) (by decide)⟩

/-- Inserting at the byte offset `byteLen s` — the full byte length of
the string, always a character boundary — never fails and appends the
whole character: the byte-offset insert of the source is
character-boundary safe at the end of the string. -/
theorem insertAtByte_byteLen (s : List Char) (c : Char) :
    insertAtByte s (byteLen s) c = some (s ++ [c]) := by
  induction s with
  | nil => rfl
  | cons a s ih =>
      have hpos : 0 < a.utf8Size := Char.utf8Size_pos a
      have hb : byteLen (a :: s) = a.utf8Size + byteLen s := by
        simp [byteLen]
      obtain ⟨m, hm⟩ : ∃ m, byteLen (a :: s) = m + 1 :=
        ⟨a.utf8Size + byteLen s - 1, by omega⟩
      rw [hm]
      unfold insertAtByte
      rw [if_pos (by omega)]
      have hms : m + 1 - a.utf8Size = byteLen s := by omega
      rw [hms, ih]
      rfl

/-- Element-wise description of the `Updating`/`Char` loop: provided the
fuel covers the remaining indices and the flag vector is at least as
long as the task vector, the loop succeeds, only rewrites `todos`, and
appends `c` to the text of exactly the flagged tasks at indices `≥ i`. -/
theorem updCharLoopAux_spec (c : Char) (fuel : Nat) :
    ∀ (i : Nat) (a : App), a.todos.length ≤ i + fuel →
      a.todos.length ≤ a.editing.length →
      ∃ T : List Todo,
        updCharLoopAux c fuel i a = some { a with todos := T } ∧
        T.length = a.todos.length ∧
        ∀ k, T.getD k defaultTodo =
          if i ≤ k ∧ k < a.todos.length ∧
              (a.editing.getD k ⟨false⟩).edit = true then
            { a.todos.getD k defaultTodo with
              text := (a.todos.getD k defaultTodo).text ++ [c] }
          else a.todos.getD k defaultTodo := by
  induction fuel with
  | zero =>
      intro i a hfuel hle
      refine ⟨a.todos, rfl, rfl, ?_⟩
      intro k
      rw [if_neg ?_]
      rintro ⟨hik, hk, -⟩
      omega
  | succ fuel ih =>
      intro i a hfuel hle
      unfold updCharLoopAux
      by_cases h : i < a.todos.length
      · rw [dif_pos h]
        have hei : i < a.editing.length := lt_of_lt_of_le h hle
        rw [dif_pos hei]
        have hflag : a.editing.getD i ⟨false⟩ = a.editing.get ⟨i, hei⟩ :=
          List.getD_eq_getElem _ _ hei
        have hset : ∀ k,
            (a.todos.set i
              { a.todos.get ⟨i, h⟩ with
                text := (a.todos.get ⟨i, h⟩).text ++ [c] }).getD k defaultTodo =
              if i = k then
                { a.todos.getD k defaultTodo with
                  text := (a.todos.getD k defaultTodo).text ++ [c] }
              else a.todos.getD k defaultTodo := by
          intro k
          by_cases hk : k < a.todos.length
          · rw [List.getD_eq_getElem _ _ (by simpa using hk), List.getElem_set]
            by_cases hik : i = k
            · subst hik
              rw [if_pos rfl, if_pos rfl, List.getD_eq_getElem _ _ h]
              rfl
            · rw [if_neg hik, if_neg hik, List.getD_eq_getElem _ _ hk]
          · rw [List.getD_eq_default _ _ (by simpa using not_lt.mp hk),
              List.getD_eq_default _ _ (not_lt.mp hk),
              if_neg (by omega)]
        by_cases hed : (a.editing.get ⟨i, hei⟩).edit = true
        · rw [if_pos hed, insertAtByte_byteLen, Option.some_bind]
          have hfuel2 :
              (a.todos.set i { a.todos.get ⟨i, h⟩ with
                text := (a.todos.get ⟨i, h⟩).text ++ [c] }).length
                ≤ (i + 1) + fuel := by
            rw [List.length_set]
            omega
          have hle2 :
              (a.todos.set i { a.todos.get ⟨i, h⟩ with
                text := (a.todos.get ⟨i, h⟩).text ++ [c] }).length
                ≤ a.editing.length := by
            rw [List.length_set]
            exact hle
          obtain ⟨T, hT, hTlen, hTform⟩ :=
            ih (i + 1)
              { a with todos :=
                  a.todos.set i { a.todos.get ⟨i, h⟩ with
                    text := (a.todos.get ⟨i, h⟩).text ++ [c] } }
              hfuel2 hle2
          refine ⟨T, hT, by simpa using hTlen, ?_⟩
          intro k
          have hk' := hTform k
          simp only [List.length_set] at hk'
          by_cases hik : i = k
          · subst hik
            rw [if_neg (by rintro ⟨h1, -, -⟩; omega), hset i, if_pos rfl] at hk'
            rw [hk', if_pos ⟨le_refl i, h, by rw [hflag]; exact hed⟩]
          · by_cases hik2 : i + 1 ≤ k
            · rw [hset k, if_neg hik] at hk'
              rw [hk']
              by_cases hcond : k < a.todos.length ∧
                  (a.editing.getD k ⟨false⟩).edit = true
              · rw [if_pos ⟨hik2, hcond.1, hcond.2⟩,
                  if_pos ⟨by omega, hcond.1, hcond.2⟩]
              · rw [if_neg (by tauto), if_neg (by tauto)]
            · rw [if_neg (by rintro ⟨h1, -, -⟩; omega), hset k, if_neg hik] at hk'
              rw [hk', if_neg (by rintro ⟨h1, -, -⟩; omega)]
        · rw [if_neg hed]
          obtain ⟨T, hT, hTlen, hTform⟩ := ih (i + 1) a (by omega) hle
          refine ⟨T, hT, hTlen, ?_⟩
          intro k
          rw [hTform k]
          by_cases hik : i = k
          · subst hik
            rw [if_neg (by rintro ⟨h1, -, -⟩; omega),
              if_neg (by rintro ⟨-, -, hfl⟩; rw [hflag] at hfl; exact hed hfl)]
          · by_cases hik2 : i + 1 ≤ k
            · by_cases hcond : k < a.todos.length ∧
                  (a.editing.getD k ⟨false⟩).edit = true
              · rw [if_pos ⟨hik2, hcond.1, hcond.2⟩,
                  if_pos ⟨by omega, hcond.1, hcond.2⟩]
              · rw [if_neg (by tauto), if_neg (by tauto)]
            · rw [if_neg (by rintro ⟨h1, -, -⟩; omega),
                if_neg (by rintro ⟨h1, -, -⟩; omega)]
      · rw [dif_neg h]
        refine ⟨a.todos, rfl, rfl, ?_⟩
        intro k
        rw [if_neg ?_]
        rintro ⟨hik, hk, -⟩
        omega

/-- Element-wise description of the `Updating`/`Backspace` loop: with
enough fuel and a flag vector at least as long as the task vector, the
loop succeeds, only rewrites `todos`, and drops the last character of
the text of exactly the flagged tasks at indices `≥ i`. -/
theorem updBackspaceLoopAux_spec (fuel : Nat) :
    ∀ (i : Nat) (a : App), a.todos.length ≤ i + fuel →
      a.todos.length ≤ a.editing.length →
      ∃ U : List Todo,
        updBackspaceLoopAux fuel i a = some { a with todos := U } ∧
        U.length = a.todos.length ∧
        ∀ k, U.getD k defaultTodo =
          if i ≤ k ∧ k < a.todos.length ∧
              (a.editing.getD k ⟨false⟩).edit = true then
            { a.todos.getD k defaultTodo with
              text := (a.todos.getD k defaultTodo).text.dropLast }
          else a.todos.getD k defaultTodo := by
  induction fuel with
  | zero =>
      intro i a hfuel hle
      refine ⟨a.todos, rfl, rfl, ?_⟩
      intro k
      rw [if_neg ?_]
      rintro ⟨hik, hk, -⟩
      omega
  | succ fuel ih =>
      intro i a hfuel hle
      unfold updBackspaceLoopAux
      by_cases h : i < a.todos.length
      · rw [dif_pos h]
        have hei : i < a.editing.length := lt_of_lt_of_le h hle
        rw [dif_pos hei]
        have hflag : a.editing.getD i ⟨false⟩ = a.editing.get ⟨i, hei⟩ :=
          List.getD_eq_getElem _ _ hei
        have hset : ∀ k,
            (a.todos.set i
              { a.todos.get ⟨i, h⟩ with
                text := (a.todos.get ⟨i, h⟩).text.dropLast }).getD k defaultTodo =
              if i = k then
                { a.todos.getD k defaultTodo with
                  text := (a.todos.getD k defaultTodo).text.dropLast }
              else a.todos.getD k defaultTodo := by
          intro k
          by_cases hk : k < a.todos.length
          · rw [List.getD_eq_getElem _ _ (by simpa using hk), List.getElem_set]
            by_cases hik : i = k
            · subst hik
              rw [if_pos rfl, if_pos rfl, List.getD_eq_getElem _ _ h]
              rfl
            · rw [if_neg hik, if_neg hik, List.getD_eq_getElem _ _ hk]
          · rw [List.getD_eq_default _ _ (by simpa using not_lt.mp hk),
              List.getD_eq_default _ _ (not_lt.mp hk),
              if_neg (by omega)]
        by_cases hed : (a.editing.get ⟨i, hei⟩).edit = true
        · rw [if_pos hed]
          have hfuel2 :
              (a.todos.set i { a.todos.get ⟨i, h⟩ with
                text := (a.todos.get ⟨i, h⟩).text.dropLast }).length
                ≤ (i + 1) + fuel := by
            rw [List.length_set]
            omega
          have hle2 :
              (a.todos.set i { a.todos.get ⟨i, h⟩ with
                text := (a.todos.get ⟨i, h⟩).text.dropLast }).length
                ≤ a.editing.length := by
            rw [List.length_set]
            exact hle
          obtain ⟨U, hU, hUlen, hUform⟩ :=
            ih (i + 1)
              { a with todos :=
                  a.todos.set i { a.todos.get ⟨i, h⟩ with
                    text := (a.todos.get ⟨i, h⟩).text.dropLast } }
              hfuel2 hle2
          refine ⟨U, hU, by simpa using hUlen, ?_⟩
          intro k
          have hk' := hUform k
          simp only [List.length_set] at hk'
          by_cases hik : i = k
          · subst hik
            rw [if_neg (by rintro ⟨h1, -, -⟩; omega), hset i, if_pos rfl] at hk'
            rw [hk', if_pos ⟨le_refl i, h, by rw [hflag]; exact hed⟩]
          · by_cases hik2 : i + 1 ≤ k
            · rw [hset k, if_neg hik] at hk'
              rw [hk']
              by_cases hcond : k < a.todos.length ∧
                  (a.editing.getD k ⟨false⟩).edit = true
              · rw [if_pos ⟨hik2, hcond.1, hcond.2⟩,
                  if_pos ⟨by omega, hcond.1, hcond.2⟩]
              · rw [if_neg (by tauto), if_neg (by tauto)]
            · rw [if_neg (by rintro ⟨h1, -, -⟩; omega), hset k, if_neg hik] at hk'
              rw [hk', if_neg (by rintro ⟨h1, -, -⟩; omega)]
        · rw [if_neg hed]
          obtain ⟨U, hU, hUlen, hUform⟩ := ih (i + 1) a (by omega) hle
          refine ⟨U, hU, hUlen, ?_⟩
          intro k
          rw [hUform k]
          by_cases hik : i = k
          · subst hik
            rw [if_neg (by rintro ⟨h1, -, -⟩; omega),
              if_neg (by rintro ⟨-, -, hfl⟩; rw [hflag] at hfl; exact hed hfl)]
          · by_cases hik2 : i + 1 ≤ k
            · by_cases hcond : k < a.todos.length ∧
                  (a.editing.getD k ⟨false⟩).edit = true
              · rw [if_pos ⟨hik2, hcond.1, hcond.2⟩,
                  if_pos ⟨by omega, hcond.1, hcond.2⟩]
              · rw [if_neg (by tauto), if_neg (by tauto)]
            · rw [if_neg (by rintro ⟨h1, -, -⟩; omega),
                if_neg (by rintro ⟨h1, -, -⟩; omega)]
      · rw [dif_neg h]
        refine ⟨a.todos, rfl, rfl, ?_⟩
        intro k
        rw [if_neg ?_]
        rintro ⟨hik, hk, -⟩
        omega

/-- Setting position `i` of `range n` to `i` changes nothing. -/
theorem range_set_self (n i : Nat) (_hi : i < n) :
    (List.range n).set i i = List.range n := by
  apply List.ext_getElem
  · simp
  · intro k h1 h2
    rw [List.getElem_set]
    by_cases h : i = k
    · subst h
      rw [if_pos rfl, List.getElem_range]
    · rw [if_neg h]

/-- One model operation preserves "count = length and ids are exactly
the positions": `add` appends with `id = count`, `toggle` keeps ids,
`delete` renumbers.  The operation never panics from such a state. -/
theorem stepOp_preserves_ids (op : ModelOp) (a : App)
    (h1 : a.count = a.todos.length)
    (h2 : a.todos.map Todo.id = List.range a.todos.length) :
    ∃ a', stepOp op a = some a' ∧ a'.count = a'.todos.length ∧
      a'.todos.map Todo.id = List.range a'.todos.length := by
  cases op with
  | add t =>
      simp only [stepOp, App.submit_message]
      rw [if_pos (by simpa using le_of_eq h1)]
      refine ⟨_, rfl, ?_, ?_⟩
      · simp only []
        rw [h1, List.insertIdx_length_self, List.length_append]
        rfl
      · simp only []
        rw [h1, List.insertIdx_length_self, List.map_append, h2,
          List.length_append]
        simp [List.range_succ]
  | toggle i =>
      simp only [stepOp, toggleDone]
      by_cases h : i < a.todos.length
      · rw [dif_pos h]
        refine ⟨_, rfl, ?_, ?_⟩
        · simpa [List.length_set] using h1
        · simp only [List.map_set, List.length_set]
          rw [h2]
          have hgi : (a.todos.get ⟨i, h⟩).id = i := by
            have hd := map_id_range_getD a.todos h2 i h
            rw [List.getD_eq_getElem _ _ h] at hd
            simpa using hd
          simp only [hgi]
          exact range_set_self _ _ h
      · rw [dif_neg h]
        exact ⟨_, rfl, h1, h2⟩
  | delete i =>
      simp only [stepOp, deleteTask]
      by_cases h : i < a.todos.length
      · rw [if_pos h]
        refine ⟨_, rfl, ?_, ?_⟩
        · simp only []
          rw [renumberLoop, renumberLoopAux_length, List.length_eraseIdx,
            if_pos h, h1]
        · simp only []
          rw [renumberLoop_map_id, renumberLoop, renumberLoopAux_length]
      · rw [if_neg h]
        exact ⟨_, rfl, h1, h2⟩

/-- A sequence of model operations preserves the dense positional id
invariant and never panics. -/
theorem runOps_preserves_ids (ops : List ModelOp) :
    ∀ a : App, a.count = a.todos.length →
      a.todos.map Todo.id = List.range a.todos.length →
      ∃ a', runOps ops a = some a' ∧ a'.count = a'.todos.length ∧
        a'.todos.map Todo.id = List.range a'.todos.length := by
  induction ops with
  | nil =>
      intro a h1 h2
      exact ⟨a, rfl, h1, h2⟩
  | cons op ops ih =>
      intro a h1 h2
      obtain ⟨a1, hs, g1, g2⟩ := stepOp_preserves_ids op a h1 h2
      obtain ⟨a', hr, k1, k2⟩ := ih a1 g1 g2
      refine ⟨a', ?_, k1, k2⟩
      simp [runOps, hs, hr]

/-- C5: after every sequence of model operations (adds, toggles,
deletes) from the empty startup state, no operation has panicked,
`count` equals the number of tasks, and the list of `id` values is
exactly `0, 1, ..., count - 1` in order — dense, duplicate-free, and
equal to each task's position. -/
theorem c5_ids_are_dense_positional (ops : List ModelOp) :
    ∃ a, runOps ops App.default = some a ∧
      a.count = a.todos.length ∧
      a.todos.map Todo.id = List.range a.todos.length :=
  runOps_preserves_ids ops App.default rfl rfl

/-- C7 amended: after any nonempty sequence of `move_cursor_left` /
`move_cursor_right` operations the cursor offset lies in `[0, B]`, where
`B` is the byte length of the input buffer (`input.len()` in Rust), not
its character count: `clamp_cursor` clamps to the byte length. -/
theorem c7_cursor_clamped_to_byte_length (a : App) (m : CursorMove)
    (ms : List CursorMove) :
    (applyMoves (m :: ms) a).cursor_position
      ≤ byteLen (applyMoves (m :: ms) a).input := by
  exact applyMoves_cursor_le ms (applyMove m a) (cursor_applyMove_le m a)

/-- C9: at startup, an absent persisted value is seeded with the
empty-array encoding `"[]"` and decodes to the empty task sequence,
while a present value that does not decode as task data makes the load
fail with an error (which `run_app` propagates, terminating the
program).  `decode` stands for the external JSON decoder
(`serde_json::from_str`); the hypothesis records that it parses `"[]"`
as the empty task list. -/
theorem c9_load_seeds_empty_store_and_fails_on_corrupt_data
    (decode : String → Option (List Todo)) (h : decode "[]" = some []) :
    loadTodos decode none = Except.ok ([], "[]") ∧
    ∀ s : String, decode s = none →
      loadTodos decode (some s) = Except.error () := by
  refine ⟨?_, ?_⟩
  · simp [loadTodos, h]
  · intro s hs
    simp [loadTodos, hs]

/-- C9 witness: the theorem applied at a concrete decoder that parses
`"[]"` and rejects everything else, and at the concrete corrupt value
`"not json"`. -/
theorem c9_load_witness :
    ((fun s => if s = "[]" then some ([] : List Todo) else none) "[]"
        = some []) ∧
    loadTodos (fun s => if s = "[]" then some ([] : List Todo) else none) none
        = Except.ok ([], "[]") ∧
    loadTodos (fun s => if s = "[]" then some ([] : List Todo) else none)
        (some "not json") = Except.error () := by
  refine ⟨by simp, ?_, ?_⟩
  · exact (c9_load_seeds_empty_store_and_fails_on_corrupt_data _ (by simp)).1
  · exact (c9_load_seeds_empty_store_and_fails_on_corrupt_data _ (by simp)).2
      "not json" (by simp)

/-- C10: pressing `Enter` in `Editing` mode submits the input buffer as
a new task (appended when `count = todos.length`, the reachable case)
and leaves the interaction mode unchanged, i.e. still `Editing`:
`submit_message` never touches `input_mode`.  The hypothesis
`count ≤ todos.length` is the condition under which `Vec::insert` does
not panic; it holds in every reachable state. -/
theorem c10_enter_submits_and_stays_in_editing (a : App)
    (h : a.input_mode = InputMode.Editing) (hc : a.count ≤ a.todos.length) :
    handleKey a ⟨KeyEventKind.press, KeyCode.enter⟩
      = Outcome.next
          { a with
            editing := a.editing ++ [⟨false⟩],
            todos := a.todos.insertIdx a.count ⟨a.count, a.input, false⟩,
            input := [],
            cursor_position := 0,
            count := a.count + 1 } ∧
    ({ a with
        editing := a.editing ++ [⟨false⟩],
        todos := a.todos.insertIdx a.count ⟨a.count, a.input, false⟩,
        input := [],
        cursor_position := 0,
        count := a.count + 1 } : App).input_mode = InputMode.Editing := by
  refine ⟨?_, h⟩
  simp [handleKey, h, App.submit_message, hc]

/-- C10 witness: the theorem applied at a concrete state in `Editing`
mode whose buffer holds `"m"`. -/
theorem c10_enter_submits_witness :
    ((⟨['m'], 1, InputMode.Editing, 0, [], []⟩ : App).input_mode
        = InputMode.Editing ∧
     (⟨['m'], 1, InputMode.Editing, 0, [], []⟩ : App).count
        ≤ (⟨['m'], 1, InputMode.Editing, 0, [], []⟩ : App).todos.length) ∧
    (handleKey (⟨['m'], 1, InputMode.Editing, 0, [], []⟩ : App)
        ⟨KeyEventKind.press, KeyCode.enter⟩
      = Outcome.next
          { (⟨['m'], 1, InputMode.Editing, 0, [], []⟩ : App) with
            editing := (⟨['m'], 1, InputMode.Editing, 0, [], []⟩ : App).editing ++ [⟨false⟩],
            todos := (⟨['m'], 1, InputMode.Editing, 0, [], []⟩ : App).todos.insertIdx
                (⟨['m'], 1, InputMode.Editing, 0, [], []⟩ : App).count
                ⟨(⟨['m'], 1, InputMode.Editing, 0, [], []⟩ : App).count,
                 (⟨['m'], 1, InputMode.Editing, 0, [], []⟩ : App).input, false⟩,
            input := [],
            cursor_position := 0,
            count := (⟨['m'], 1, InputMode.Editing, 0, [], []⟩ : App).count + 1 } ∧
     ({ (⟨['m'], 1, InputMode.Editing, 0, [], []⟩ : App) with
          editing := (⟨['m'], 1, InputMode.Editing, 0, [], []⟩ : App).editing ++ [⟨false⟩],
          todos := (⟨['m'], 1, InputMode.Editing, 0, [], []⟩ : App).todos.insertIdx
              (⟨['m'], 1, InputMode.Editing, 0, [], []⟩ : App).count
              ⟨(⟨['m'], 1, InputMode.Editing, 0, [], []⟩ : App).count,
               (⟨['m'], 1, InputMode.Editing, 0, [], []⟩ : App).input, false⟩,
          input := [],
          cursor_position := 0,
          count := (⟨['m'], 1, InputMode.Editing, 0, [], []⟩ : App).count + 1 } : App).input_mode
        = InputMode.Editing) :=
  ⟨⟨rfl, by decide⟩,
   c10_enter_submits_and_stays_in_editing
     (⟨['m'], 1, InputMode.Editing, 0, [], []⟩ : App) rfl (by decide)⟩

/-- Two task lists of the same length agreeing at every `getD` position
are equal. -/
theorem todos_eq_of_getD_eq {l1 l2 : List Todo} (hlen : l1.length = l2.length)
    (h : ∀ k, l1.getD k defaultTodo = l2.getD k defaultTodo) : l1 = l2 := by
  apply List.ext_getElem hlen
  intro n h1 h2
  have hn := h n
  rwa [List.getD_eq_getElem _ _ h1, List.getD_eq_getElem _ _ h2] at hn

/-- C8 amended: in `Updating` mode (with the flag vector at least as
long as the task vector, as in every reachable state), a character key
appends exactly the one character `c` at the end of the text of every
task flagged `editing` — as whole characters, never splitting an
encoding: the byte-offset insert happens at the full byte length, a
character boundary — and a backspace removes exactly one user-perceived
character from the end of every flagged task's nonempty text and is a
no-op on an empty text.  Unflagged tasks are untouched, and when no
task is flagged both operations leave the task list unchanged. -/
theorem c8_edit_char_appends_and_backspace_drops_one (a : App) (c : Char)
    (hm : a.input_mode = InputMode.Updating)
    (hle : a.todos.length ≤ a.editing.length) :
    (∃ T, handleKey a ⟨KeyEventKind.press, KeyCode.char c⟩
          = Outcome.next { a with todos := T } ∧
       T.length = a.todos.length ∧
       (∀ k, T.getD k defaultTodo =
         if k < a.todos.length ∧ (a.editing.getD k ⟨false⟩).edit = true then
           { a.todos.getD k defaultTodo with
             text := (a.todos.getD k defaultTodo).text ++ [c] }
         else a.todos.getD k defaultTodo) ∧
       ((∀ k, k < a.todos.length → (a.editing.getD k ⟨false⟩).edit = false) →
         T = a.todos)) ∧
    (∃ U, handleKey a ⟨KeyEventKind.press, KeyCode.backspace⟩
          = Outcome.next { a with todos := U } ∧
       U.length = a.todos.length ∧
       (∀ k, U.getD k defaultTodo =
         if k < a.todos.length ∧ (a.editing.getD k ⟨false⟩).edit = true then
           { a.todos.getD k defaultTodo with
             text := (a.todos.getD k defaultTodo).text.dropLast }
         else a.todos.getD k defaultTodo) ∧
       (∀ k, k < a.todos.length → (a.editing.getD k ⟨false⟩).edit = true →
         (a.todos.getD k defaultTodo).text ≠ [] →
         ∃ ch, (a.todos.getD k defaultTodo).text
             = (U.getD k defaultTodo).text ++ [ch]) ∧
       ((∀ k, k < a.todos.length → (a.editing.getD k ⟨false⟩).edit = false) →
         U = a.todos)) := by
  obtain ⟨T, hT, hTlen, hTform⟩ :=
    updCharLoopAux_spec c a.todos.length 0 a (by omega) hle
  obtain ⟨U, hU, hUlen, hUform⟩ :=
    updBackspaceLoopAux_spec a.todos.length 0 a (by omega) hle
  refine ⟨⟨T, ?_, hTlen, ?_, ?_⟩, ⟨U, ?_, hUlen, ?_, ?_, ?_⟩⟩
  · unfold handleKey
    nth_rewrite 1 [hm]
    show (match updCharLoopAux c a.todos.length 0 a with
          | some a' => Outcome.next a'
          | none => Outcome.panic) = _
    rw [hT]
  · intro k
    rw [hTform k]
    simp only [Nat.zero_le, true_and]
  · intro hnone
    apply todos_eq_of_getD_eq hTlen
    intro k
    rw [hTform k, if_neg ?_]
    rintro ⟨-, hk, hfl⟩
    rw [hnone k hk] at hfl
    cases hfl
  · unfold handleKey
    nth_rewrite 1 [hm]
    show (match updBackspaceLoopAux a.todos.length 0 a with
          | some a' => Outcome.next a'
          | none => Outcome.panic) = _
    rw [hU]
  · intro k
    rw [hUform k]
    simp only [Nat.zero_le, true_and]
  · intro k hk hfl hne
    have hfk := hUform k
    rw [if_pos ⟨Nat.zero_le k, hk, hfl⟩] at hfk
    refine ⟨(a.todos.getD k defaultTodo).text.getLast hne, ?_⟩
    rw [hfk]
    exact (List.dropLast_append_getLast hne).symm
  · intro hnone
    apply todos_eq_of_getD_eq hUlen
    intro k
    rw [hUform k, if_neg ?_]
    rintro ⟨-, hk, hfl⟩
    rw [hnone k hk] at hfl
    cases hfl

/-- C8 witness: the amended theorem applied at a concrete `Updating`
state with one flagged task whose text is `"h"`, and the character
`'i'`. -/
theorem c8_edit_char_backspace_witness :
    ((⟨[], 0, InputMode.Updating, 1, [⟨0, ['h'], false⟩], [⟨true⟩]⟩ : App).input_mode = InputMode.Updating ∧
     (⟨[], 0, InputMode.Updating, 1, [⟨0, ['h'], false⟩], [⟨true⟩]⟩ : App).todos.length
       ≤ (⟨[], 0, InputMode.Updating, 1, [⟨0, ['h'], false⟩], [⟨true⟩]⟩ : App).editing.length) ∧
    (∃ T, handleKey (⟨[], 0, InputMode.Updating, 1, [⟨0, ['h'], false⟩], [⟨true⟩]⟩ : App) ⟨KeyEventKind.press, KeyCode.char 'i'⟩
          = Outcome.next { (⟨[], 0, InputMode.Updating, 1, [⟨0, ['h'], false⟩], [⟨true⟩]⟩ : App) with todos := T } ∧
       T.length = (⟨[], 0, InputMode.Updating, 1, [⟨0, ['h'], false⟩], [⟨true⟩]⟩ : App).todos.length ∧
       (∀ k, T.getD k defaultTodo =
         if k < (⟨[], 0, InputMode.Updating, 1, [⟨0, ['h'], false⟩], [⟨true⟩]⟩ : App).todos.length ∧ ((⟨[], 0, InputMode.Updating, 1, [⟨0, ['h'], false⟩], [⟨true⟩]⟩ : App).editing.getD k ⟨false⟩).edit = true then
           { (⟨[], 0, InputMode.Updating, 1, [⟨0, ['h'], false⟩], [⟨true⟩]⟩ : App).todos.getD k defaultTodo with
             text := ((⟨[], 0, InputMode.Updating, 1, [⟨0, ['h'], false⟩], [⟨true⟩]⟩ : App).todos.getD k defaultTodo).text ++ ['i'] }
         else (⟨[], 0, InputMode.Updating, 1, [⟨0, ['h'], false⟩], [⟨true⟩]⟩ : App).todos.getD k defaultTodo) ∧
       ((∀ k, k < (⟨[], 0, InputMode.Updating, 1, [⟨0, ['h'], false⟩], [⟨true⟩]⟩ : App).todos.length → ((⟨[], 0, InputMode.Updating, 1, [⟨0, ['h'], false⟩], [⟨true⟩]⟩ : App).editing.getD k ⟨false⟩).edit = false) →
         T = (⟨[], 0, InputMode.Updating, 1, [⟨0, ['h'], false⟩], [⟨true⟩]⟩ : App).todos)) ∧
    (∃ U, handleKey (⟨[], 0, InputMode.Updating, 1, [⟨0, ['h'], false⟩], [⟨true⟩]⟩ : App) ⟨KeyEventKind.press, KeyCode.backspace⟩
          = Outcome.next { (⟨[], 0, InputMode.Updating, 1, [⟨0, ['h'], false⟩], [⟨true⟩]⟩ : App) with todos := U } ∧
       U.length = (⟨[], 0, InputMode.Updating, 1, [⟨0, ['h'], false⟩], [⟨true⟩]⟩ : App).todos.length ∧
       (∀ k, U.getD k defaultTodo =
         if k < (⟨[], 0, InputMode.Updating, 1, [⟨0, ['h'], false⟩], [⟨true⟩]⟩ : App).todos.length ∧ ((⟨[], 0, InputMode.Updating, 1, [⟨0, ['h'], false⟩], [⟨true⟩]⟩ : App).editing.getD k ⟨false⟩).edit = true then
           { (⟨[], 0, InputMode.Updating, 1, [⟨0, ['h'], false⟩], [⟨true⟩]⟩ : App).todos.getD k defaultTodo with
             text := ((⟨[], 0, InputMode.Updating, 1, [⟨0, ['h'], false⟩], [⟨true⟩]⟩ : App).todos.getD k defaultTodo).text.dropLast }
         else (⟨[], 0, InputMode.Updating, 1, [⟨0, ['h'], false⟩], [⟨true⟩]⟩ : App).todos.getD k defaultTodo) ∧
       (∀ k, k < (⟨[], 0, InputMode.Updating, 1, [⟨0, ['h'], false⟩], [⟨true⟩]⟩ : App).todos.length → ((⟨[], 0, InputMode.Updating, 1, [⟨0, ['h'], false⟩], [⟨true⟩]⟩ : App).editing.getD k ⟨false⟩).edit = true →
         ((⟨[], 0, InputMode.Updating, 1, [⟨0, ['h'], false⟩], [⟨true⟩]⟩ : App).todos.getD k defaultTodo).text ≠ [] →
         ∃ ch, ((⟨[], 0, InputMode.Updating, 1, [⟨0, ['h'], false⟩], [⟨true⟩]⟩ : App).todos.getD k defaultTodo).text
             = (U.getD k defaultTodo).text ++ [ch]) ∧
       ((∀ k, k < (⟨[], 0, InputMode.Updating, 1, [⟨0, ['h'], false⟩], [⟨true⟩]⟩ : App).todos.length → ((⟨[], 0, InputMode.Updating, 1, [⟨0, ['h'], false⟩], [⟨true⟩]⟩ : App).editing.getD k ⟨false⟩).edit = false) →
         U = (⟨[], 0, InputMode.Updating, 1, [⟨0, ['h'], false⟩], [⟨true⟩]⟩ : App).todos)) :=
  ⟨⟨rfl, by decide⟩,
   c8_edit_char_appends_and_backspace_drops_one
     (⟨[], 0, InputMode.Updating, 1, [⟨0, ['h'], false⟩], [⟨true⟩]⟩ : App) 'i' rfl (by decide)⟩

/-- C8 counterexample: the claim says `apply_edit_backspace` removes
exactly one user-perceived character from the end of the flagged task's
text.  On a flagged task with empty text the backspace is a no-op
(`String::pop` returns `None`): the state is unchanged, and no character
`c` satisfies "old text = new text with `c` removed from the end". -/
theorem c8_backspace_on_empty_text_removes_nothing :
    handleKey ⟨[], 0, InputMode.Updating, 1, [⟨0, [], false⟩], [⟨true⟩]⟩
        ⟨KeyEventKind.press, KeyCode.backspace⟩
      = Outcome.next ⟨[], 0, InputMode.Updating, 1, [⟨0, [], false⟩], [⟨true⟩]⟩ ∧
    ∀ c : Char,
      (([⟨0, [], false⟩] : List Todo).getD 0 ⟨0, [], false⟩).text ≠
        (([⟨0, [], false⟩] : List Todo).getD 0 ⟨0, [], false⟩).text ++ [c] :=
  ⟨by decide, fun c => by simp⟩

end Todolist
